import Mathlib

/-!
Verification of the playwithme multi-room audio streaming core.

The TypeScript sources are shallowly embedded in Lean:
JavaScript float64 timestamps and counters are modelled as exact
rationals (ℚ), sequence numbers and counters as integers (ℤ),
byte streams as lists of naturals.  Calls to the monotonic clock
`now()` become explicit time parameters.
-/

namespace PlayMe

/-! ## Configuration constants (src/config.ts, `CONFIG`) -/

def sampleRate : ℕ := 48000

def channels : ℕ := 2

def bitDepth : ℕ := 16

def chunkDurationMs : ℕ := 20

/-- `Math.floor((sampleRate * chunkDurationMs) / 1000)` -/
def samplesPerChunk : ℕ := sampleRate * chunkDurationMs / 1000

/-- `samplesPerChunk * channels * (bitDepth / 8)` -/
def bytesPerChunk : ℕ := samplesPerChunk * channels * (bitDepth / 8)

def syncIntervalMs : ℕ := 1000

def syncSamples : ℕ := 5

def targetBufferMs : ℚ := 60

def maxBufferMs : ℚ := 200

/-! ## Clock synchronization (sync.ts) -/

structure SyncSample where
  offset : ℚ
  rtt : ℚ
  timestamp : ℚ
  deriving Repr, DecidableEq

structure SyncState where
  offset : ℚ
  roundTripTime : ℚ
  drift : ℚ
  samples : List SyncSample
  lastSyncTime : ℚ
  isSynced : Bool
  deriving Repr, DecidableEq

def createSyncState : SyncState :=
  { offset := 0, roundTripTime := 0, drift := 0, samples := [],
    lastSyncTime := 0, isSynced := false }

/-- `rtt = t4 - t1 - (t3 - t2)` as computed in `processSyncResponse`. -/
def rttOf (t1 t2 t3 t4 : ℚ) : ℚ := t4 - t1 - (t3 - t2)

/-- `offset = (t2 - t1 + (t3 - t4)) / 2` as computed in `processSyncResponse`. -/
def offsetOf (t1 t2 t3 t4 : ℚ) : ℚ := (t2 - t1 + (t3 - t4)) / 2

/-- `[...state.samples, sample].slice(-CONFIG.syncSamples)`: keep the last `n`. -/
def sliceLast (n : ℕ) (l : List SyncSample) : List SyncSample :=
  l.drop (l.length - n)

/-- Weighted mean of the sample offsets, weight `1 / Math.max(rtt, 0.1)`.
The source accumulates `totalWeight` and `weightedSum` in one loop. -/
def calculateWeightedOffset (samples : List SyncSample) : ℚ :=
  match samples with
  | [] => 0
  | [s] => s.offset
  | _ =>
    let p := samples.foldl
      (fun acc s =>
        let w := 1 / max s.rtt (1/10)
        (acc.1 + w, acc.2 + s.offset * w))
      ((0 : ℚ), (0 : ℚ))
    p.2 / p.1

/-- Ordinary least-squares slope of offset over timestamp, scaled to ms/s. -/
def calculateDrift (samples : List SyncSample) : ℚ :=
  if samples.length < 2 then 0
  else
    let n : ℚ := samples.length
    let p := samples.foldl
      (fun acc s => (acc.1 + s.timestamp, acc.2.1 + s.offset,
                     acc.2.2.1 + s.timestamp * s.offset, acc.2.2.2 + s.timestamp * s.timestamp))
      ((0 : ℚ), (0 : ℚ), (0 : ℚ), (0 : ℚ))
    let sumX := p.1
    let sumY := p.2.1
    let sumXY := p.2.2.1
    let sumX2 := p.2.2.2
    let slope := (n * sumXY - sumX * sumY) / (n * sumX2 - sumX * sumX)
    slope * 1000

/-- `processSyncResponse` (sync.ts).  The source reads the clock three times
(t4, the sample timestamp, and `lastSyncTime`) in immediate succession;
all three reads are modelled by the single instant `t4`. -/
def processSyncResponse (t1 t2 t3 t4 : ℚ) (state : SyncState) : SyncState :=
  let rtt := rttOf t1 t2 t3 t4
  let offset := offsetOf t1 t2 t3 t4
  let sample : SyncSample := { offset := offset, rtt := rtt, timestamp := t4 }
  let samples := sliceLast syncSamples (state.samples ++ [sample])
  { offset := calculateWeightedOffset samples
    roundTripTime := rtt
    drift := calculateDrift samples
    samples := samples
    lastSyncTime := t4
    isSynced := true }

/-- `toLocalTime(serverTime, state) = serverTime - state.offset` (sync.ts). -/
def toLocalTime (serverTime : ℚ) (state : SyncState) : ℚ :=
  serverTime - state.offset

/-! ## Wire data model (protocol.ts) -/

structure AudioChunk where
  timestamp : ℚ
  sequence : ℤ
  data : List ℕ
  deriving Repr, DecidableEq

structure ServerInfo where
  sampleRate : ℕ
  channels : ℕ
  bitDepth : ℕ
  chunkDurationMs : ℕ
  serverStartTime : ℚ
  deriving Repr, DecidableEq

/-! ## Sink jitter buffer and session state (client.ts) -/

structure BufferedChunk where
  chunk : AudioChunk
  playTime : ℚ
  deriving Repr, DecidableEq

/-- `ClientState` (client.ts).  The WebSocket and playback process handles
are environment resources and carry no data relevant to the claims;
the remaining fields are embedded as written. -/
structure ClientState where
  sync : SyncState
  buffer : List BufferedChunk
  serverInfo : Option ServerInfo
  isConnected : Bool
  isPlaying : Bool
  lastSequence : ℤ
  droppedChunks : ℤ
  lateChunks : ℕ
  pendingSyncT1 : Option ℚ
  deriving Repr, DecidableEq

/-- The state built at the top of `startClient`. -/
def initClientState : ClientState :=
  { sync := createSyncState, buffer := [], serverInfo := none,
    isConnected := false, isPlaying := false, lastSequence := -1,
    droppedChunks := 0, lateChunks := 0, pendingSyncT1 := none }

/-- The binary-search loop of `insertSorted` (client.ts):
`while (low < high) { mid = (low+high)>>>1; if (buffer[mid] && buffer[mid].playTime < item.playTime) low = mid+1 else high = mid }`.
An out-of-range index (`buffer[mid]` undefined) takes the else branch. -/
def bsearchLow (buffer : List BufferedChunk) (item : BufferedChunk)
    (low high : ℕ) : ℕ :=
  if h : low < high then
    match buffer.get? ((low + high) / 2) with
    | some midItem =>
      if midItem.playTime < item.playTime then
        bsearchLow buffer item ((low + high) / 2 + 1) high
      else
        bsearchLow buffer item low ((low + high) / 2)
    | none => bsearchLow buffer item low ((low + high) / 2)
  else low
termination_by high - low
decreasing_by all_goals omega

/-- `insertSorted` (client.ts): binary-search placement then
`buffer.splice(low, 0, item)`. -/
def insertSorted (buffer : List BufferedChunk) (item : BufferedChunk) :
    List BufferedChunk :=
  let i := bsearchLow buffer item 0 buffer.length
  buffer.take i ++ item :: buffer.drop i

/-- The overflow-trim loop of `handleAudioChunk` (client.ts):
while the buffer is non-empty and `last.playTime - first.playTime`
exceeds `maxBufferMs`, shift the first element and count it as dropped.
Returns the trimmed buffer and the number of frames popped. -/
def trimBuffer : List BufferedChunk → List BufferedChunk × ℕ
  | [] => ([], 0)
  | first :: rest =>
    let lastChunk := (first :: rest).getLast (by simp)
    if lastChunk.playTime - first.playTime ≤ maxBufferMs then (first :: rest, 0)
    else
      let p := trimBuffer rest
      (p.1, p.2 + 1)

/-- Sequence-gap accounting at the top of `handleAudioChunk` (client.ts):
`if (lastSequence >= 0 && seq !== lastSequence + 1) { gap = seq - lastSequence - 1; if (gap > 0) dropped += gap }; lastSequence = seq`.
Returns the new `(lastSequence, droppedChunks)`. -/
def seqAccount (lastSeq dropped : ℤ) (seq : ℤ) : ℤ × ℤ :=
  if 0 ≤ lastSeq ∧ seq ≠ lastSeq + 1 then
    if 0 < seq - lastSeq - 1 then (seq, dropped + (seq - lastSeq - 1))
    else (seq, dropped)
  else (seq, dropped)

/-- `handleAudioChunk` (client.ts).  `currentTime` is the value of the
single `now()` call in the body. -/
def handleAudioChunk (chunk : AudioChunk) (currentTime : ℚ)
    (state : ClientState) : ClientState :=
  if state.sync.isSynced then
    let p := seqAccount state.lastSequence state.droppedChunks chunk.sequence
    let s1 := { state with lastSequence := p.1, droppedChunks := p.2 }
    let playTime := toLocalTime chunk.timestamp state.sync + targetBufferMs
    if playTime < currentTime then
      { s1 with lateChunks := s1.lateChunks + 1 }
    else
      let buf := insertSorted s1.buffer { chunk := chunk, playTime := playTime }
      let t := trimBuffer buf
      { s1 with buffer := t.1, droppedChunks := s1.droppedChunks + t.2 }
  else state

/-- Processing a stream of incoming audio chunks from the initial client
state; each element pairs the decoded chunk with the `now()` instant at
which `handleAudioChunk` runs. -/
def processChunks (inputs : List (AudioChunk × ℚ)) (s : ClientState) : ClientState :=
  inputs.foldl (fun st p => handleAudioChunk p.1 p.2 st) s

/-! ## Wire codec (protocol.ts) -/

/-- A decoded MessagePack value.  Strings and binary blobs keep their raw
bytes; a float64 keeps its eight IEEE-754 bytes. -/
inductive MsgVal where
  | int (n : ℤ)
  | float (bytes : List ℕ)
  | str (bytes : List ℕ)
  | bin (bytes : List ℕ)
  | map (pairs : List (MsgVal × MsgVal))

/-- Read exactly `n` bytes, failing when fewer remain: a blob or string
shorter than its declared length is malformed. -/
def readN (n : ℕ) (bs : List ℕ) : Option (List ℕ × List ℕ) :=
  if n ≤ bs.length then some (bs.take n, bs.drop n) else none

mutual

/-- Modelled from the spec: the `decode` of the external MessagePack
library used by `decodeMessage` (protocol.ts), restricted to the type
codes §4.1 declares normative — positive fixint, fixmap, fixstr, str8,
uint8/16/32, float64, bin8/16/32, negative fixint.  Structurally
malformed input (truncated data, a length-mismatched blob, an unknown
lead byte) fails with `none`; `fuel` bounds the nesting depth and is
always sufficient at `decodeMessage`'s call site. -/
def decodeVal : ℕ → List ℕ → Option (MsgVal × List ℕ)
  | 0, _ => none
  | _ + 1, [] => none
  | fuel + 1, b :: rest =>
    if b < 0x80 then some (.int b, rest)
    else if b < 0x90 then decodeMap fuel (b - 0x80) [] rest
    else if 0xa0 ≤ b ∧ b < 0xc0 then
      (readN (b - 0xa0) rest).map (fun p => (.str p.1, p.2))
    else if b = 0xc4 then
      match rest with
      | l :: r2 => (readN l r2).map (fun p => (.bin p.1, p.2))
      | [] => none
    else if b = 0xc5 then
      match rest with
      | l1 :: l2 :: r2 => (readN (l1 * 256 + l2) r2).map (fun p => (.bin p.1, p.2))
      | _ => none
    else if b = 0xc6 then
      match rest with
      | l1 :: l2 :: l3 :: l4 :: r2 =>
        (readN (((l1 * 256 + l2) * 256 + l3) * 256 + l4) r2).map
          (fun p => (.bin p.1, p.2))
      | _ => none
    else if b = 0xcb then
      (readN 8 rest).map (fun p => (.float p.1, p.2))
    else if b = 0xcc then
      match rest with
      | v :: r2 => some (.int v, r2)
      | [] => none
    else if b = 0xcd then
      match rest with
      | v1 :: v2 :: r2 => some (.int (v1 * 256 + v2), r2)
      | _ => none
    else if b = 0xce then
      match rest with
      | v1 :: v2 :: v3 :: v4 :: r2 =>
        some (.int (((v1 * 256 + v2) * 256 + v3) * 256 + v4), r2)
      | _ => none
    else if b = 0xd9 then
      match rest with
      | l :: r2 => (readN l r2).map (fun p => (.str p.1, p.2))
      | [] => none
    else if 0xe0 ≤ b ∧ b ≤ 0xff then some (.int ((b : ℤ) - 256), rest)
    else none
termination_by fuel _ => (fuel, 0)

/-- Read `n` key-value pairs of a map, accumulating in order. -/
def decodeMap : ℕ → ℕ → List (MsgVal × MsgVal) → List ℕ →
    Option (MsgVal × List ℕ)
  | _, 0, acc, bs => some (.map acc, bs)
  | fuel, n + 1, acc, bs =>
    match decodeVal fuel bs with
    | none => none
    | some (k, bs1) =>
      match decodeVal fuel bs1 with
      | none => none
      | some (v, bs2) => decodeMap fuel n (acc ++ [(k, v)]) bs2
termination_by fuel n _ _ => (fuel, n + 1)

end

/-- `decodeMessage` (protocol.ts): `decode(buffer) as Message` — plain
MessagePack decoding followed by an unchecked cast.  No tag,
field-presence, or numeric-range validation exists in the repository.
Each nesting level consumes at least one byte, so `length + 1` fuel is
always enough. -/
def decodeMessage (bs : List ℕ) : Option MsgVal :=
  (decodeVal (bs.length + 1) bs).map (fun p => p.1)

/-! ## Sink message dispatch (client.ts, `handleMessage`) -/

/-- Messages the sink receives; `other` stands for any decoded message
whose tag falls into the `default` branch of the switch. -/
inductive ClientMsg where
  | serverInfoMsg (si : ServerInfo)
  | syncResponse (t1 t2 t3 : ℚ)
  | audioChunk (c : AudioChunk)
  | other
  deriving Repr, DecidableEq

/-- Externally visible effects of the sink's message handler.  The
handler can send `client_ready` (`sendReady`); `closeConnection` is
listed so that its absence is expressible — no branch of
`handleMessage` closes the socket. -/
inductive ClientAction where
  | sendReady
  | closeConnection
  deriving Repr, DecidableEq

/-- `handleMessage` (client.ts).  `tNow` is the clock read of the
dispatched handler (`t4` for a sync response, the lateness check `now()`
for an audio chunk). -/
def clientHandleMessage (m : ClientMsg) (tNow : ℚ) (s : ClientState) :
    ClientState × List ClientAction :=
  match m with
  | .serverInfoMsg si => ({ s with serverInfo := some si }, [])
  | .syncResponse t1 t2 t3 =>
    if s.pendingSyncT1 ≠ none then
      let sync' := processSyncResponse t1 t2 t3 tNow s.sync
      let s' := { s with sync := sync', pendingSyncT1 := none }
      if sync'.isSynced ∧ s'.isPlaying = false then (s', [.sendReady])
      else (s', [])
    else (s, [])
  | .audioChunk c => (handleAudioChunk c tNow s, [])
  | .other => (s, [])

/-! ## Source scheduler (src/server.ts) -/

/-- `Client` record of the source's sink table (src/server.ts); the
WebSocket handle is an environment resource. -/
structure SClient where
  id : String
  isReady : Bool
  deriving Repr, DecidableEq

/-- Messages the source receives from a sink; `other` stands for any
message whose tag falls into the handler's `default` branch. -/
inductive ServerMsg where
  | syncRequest (t1 : ℚ)
  | clientReady (clientId : String)
  | other
  deriving Repr, DecidableEq

/-- Externally visible sends of the source's message handler. -/
inductive ServerAction where
  | sendSyncResponse (toId : String) (t1 t2 t3 : ℚ)
  | sendServerInfo (toId : String) (info : ServerInfo)
  deriving Repr, DecidableEq

structure ServerState where
  clients : List SClient
  sequence : ℤ
  serverStartTime : ℚ
  deriving Repr, DecidableEq

/-- The `open` websocket handler (src/server.ts): register the connection
with `isReady = false` and send the session descriptor. -/
def serverOpen (cid : String) (s : ServerState) : ServerState × ServerAction :=
  ({ s with clients := s.clients ++ [{ id := cid, isReady := false }] },
    .sendServerInfo cid
      { sampleRate := sampleRate, channels := channels, bitDepth := bitDepth,
        chunkDurationMs := chunkDurationMs, serverStartTime := s.serverStartTime })

/-- `client.isReady = true` for the client whose id is the connection's
(`state.clients.get(ws.data.id)` then mutate; ids are the map's keys). -/
def setReady (wsId : String) (cls : List SClient) : List SClient :=
  cls.map fun c => if c.id = wsId then { c with isReady := true } else c

/-- `handleMessage` (src/server.ts).  `t2` and `t3` are the two `now()`
reads of `processSyncRequest` (sync.ts) used to build the response. -/
def serverHandleMessage (wsId : String) (m : ServerMsg) (t2 t3 : ℚ)
    (s : ServerState) : ServerState × List ServerAction :=
  match m with
  | .syncRequest t1 => (s, [.sendSyncResponse wsId t1 t2 t3])
  | .clientReady _ => ({ s with clients := setReady wsId s.clients }, [])
  | .other => (s, [])

/-- The per-frame fanout filter of `processAudioStream` (src/server.ts):
the encoded chunk is sent to exactly the clients with `isReady` true. -/
def broadcastTargets (cls : List SClient) : List SClient :=
  cls.filter (fun c => c.isReady)

/-- One iteration of the `for await` loop of `processAudioStream`:
stamp the block at `tNow`, take the next sequence number, and send the
encoded chunk to every ready client. -/
def processAudioStep (tNow : ℚ) (s : ServerState) (block : List ℕ) :
    ServerState × AudioChunk × List String :=
  ({ s with sequence := s.sequence + 1 },
    { timestamp := tNow, sequence := s.sequence, data := block },
    (broadcastTargets s.clients).map (fun c => c.id))

/-- The buffer time-span `last.playTime - first.playTime` of the spec;
`0` for an empty buffer. -/
def bufferSpan (buf : List BufferedChunk) : ℚ :=
  match buf.head?, buf.getLast? with
  | some f, some l => l.playTime - f.playTime
  | _, _ => 0

theorem trimBuffer_drop (buf : List BufferedChunk) :
    ∃ k, k ≤ buf.length ∧ trimBuffer buf = (buf.drop k, k) := by
  induction buf with
  | nil => exact ⟨0, by simp [trimBuffer]⟩
  | cons first rest ih =>
    by_cases h :
        ((first :: rest).getLast (by simp)).playTime - first.playTime ≤ maxBufferMs
    · exact ⟨0, by simp [trimBuffer, h]⟩
    · obtain ⟨k, hk, hres⟩ := ih
      refine ⟨k + 1, by simpa using Nat.succ_le_succ hk, ?_⟩
      simp [trimBuffer, h, hres]

theorem bufferSpan_cons (first : BufferedChunk) (rest : List BufferedChunk) :
    bufferSpan (first :: rest) =
      ((first :: rest).getLast (by simp)).playTime - first.playTime := by
  rw [bufferSpan, List.getLast?_eq_getLast (first :: rest) (by simp)]
  simp

theorem trimBuffer_span (buf : List BufferedChunk) :
    bufferSpan (trimBuffer buf).1 ≤ maxBufferMs := by
  induction buf with
  | nil =>
    simp [trimBuffer, bufferSpan, maxBufferMs]
  | cons first rest ih =>
    by_cases h :
        ((first :: rest).getLast (by simp)).playTime - first.playTime ≤ maxBufferMs
    · simpa [trimBuffer, h, bufferSpan_cons] using h
    · simpa [trimBuffer, h] using ih

theorem seqAccount_fst (lastSeq dropped seq : ℤ) :
    (seqAccount lastSeq dropped seq).1 = seq := by
  unfold seqAccount
  split
  · split <;> rfl
  · rfl

theorem seqAccount_of_nonneg (lastSeq dropped seq : ℤ) (h : 0 ≤ lastSeq) :
    seqAccount lastSeq dropped seq = (seq, dropped + max (seq - lastSeq - 1) 0) := by
  unfold seqAccount
  split
  next =>
    split
    next hgap => rw [Prod.mk.injEq]; exact ⟨rfl, by omega⟩
    next hgap => rw [Prod.mk.injEq]; exact ⟨rfl, by omega⟩
  next hcond =>
    rw [Prod.mk.injEq]
    refine ⟨rfl, ?_⟩
    have : seq = lastSeq + 1 := by tauto
    omega

/-- Sum of the positive gaps between consecutive elements of a sequence
stream:  `Σ max(next − prev − 1, 0)`. -/
def positiveGapSum : List ℤ → ℤ
  | [] => 0
  | [_] => 0
  | a :: b :: rest => max (b - a - 1) 0 + positiveGapSum (b :: rest)

/-- The sequence-gap accounting of `handleAudioChunk`, folded over a
delivered stream of sequence numbers from the initial
`(lastSequence, droppedChunks) = (-1, 0)`. -/
def foldSeqAccount (seqs : List ℤ) : ℤ × ℤ :=
  seqs.foldl (fun p s => seqAccount p.1 p.2 s) (-1, 0)

theorem foldSeqAccount_aux (seqs : List ℤ) :
    ∀ lastSeq d : ℤ, 0 ≤ lastSeq → (∀ q ∈ seqs, (0 : ℤ) ≤ q) →
      (seqs.foldl (fun p s => seqAccount p.1 p.2 s) (lastSeq, d)).2 =
        d + positiveGapSum (lastSeq :: seqs) := by
  induction seqs with
  | nil => intro lastSeq d _ _; simp [positiveGapSum]
  | cons a rest ih =>
    intro lastSeq d hlast hall
    have ha : (0 : ℤ) ≤ a := hall a (by simp)
    have hrest : ∀ q ∈ rest, (0 : ℤ) ≤ q := fun q hq => hall q (by simp [hq])
    simp only [List.foldl_cons, seqAccount_of_nonneg lastSeq d a hlast]
    rw [ih a _ ha hrest]
    have hgs : positiveGapSum (lastSeq :: a :: rest) =
        max (a - lastSeq - 1) 0 + positiveGapSum (a :: rest) := rfl
    rw [hgs]
    ring

theorem bsearchLow_step_lt (buffer : List BufferedChunk) (item : BufferedChunk)
    (low high : ℕ) (hcase : low < high)
    (hmid : (low + high) / 2 < buffer.length)
    (hcmp : (buffer.get ⟨(low + high) / 2, hmid⟩).playTime < item.playTime) :
    bsearchLow buffer item low high =
      bsearchLow buffer item ((low + high) / 2 + 1) high := by
  rw [bsearchLow]
  rw [dif_pos hcase, List.get?_eq_get hmid]
  dsimp only
  rw [if_pos hcmp]

theorem bsearchLow_step_ge (buffer : List BufferedChunk) (item : BufferedChunk)
    (low high : ℕ) (hcase : low < high)
    (hmid : (low + high) / 2 < buffer.length)
    (hcmp : ¬ (buffer.get ⟨(low + high) / 2, hmid⟩).playTime < item.playTime) :
    bsearchLow buffer item low high =
      bsearchLow buffer item low ((low + high) / 2) := by
  rw [bsearchLow]
  rw [dif_pos hcase, List.get?_eq_get hmid]
  dsimp only
  rw [if_neg hcmp]

theorem bsearchLow_step_done (buffer : List BufferedChunk) (item : BufferedChunk)
    (low high : ℕ) (hcase : ¬ low < high) :
    bsearchLow buffer item low high = low := by
  rw [bsearchLow]
  rw [dif_neg hcase]

/-- Loop invariant of the `insertSorted` binary search: on a buffer sorted
by `playTime`, it returns the first index whose element compares `≥` the
inserted item, within the bracket it was given. -/
theorem bsearchLow_spec (buffer : List BufferedChunk) (item : BufferedChunk)
    (hs : buffer.Pairwise (fun a b => a.playTime ≤ b.playTime)) :
    ∀ n low high, high - low = n → low ≤ high → high ≤ buffer.length →
      (∀ j (hj : j < buffer.length), j < low →
        (buffer.get ⟨j, hj⟩).playTime < item.playTime) →
      (∀ j (hj : j < buffer.length), high ≤ j →
        item.playTime ≤ (buffer.get ⟨j, hj⟩).playTime) →
      low ≤ bsearchLow buffer item low high ∧
      bsearchLow buffer item low high ≤ high ∧
      (∀ j (hj : j < buffer.length), j < bsearchLow buffer item low high →
        (buffer.get ⟨j, hj⟩).playTime < item.playTime) ∧
      (∀ j (hj : j < buffer.length), bsearchLow buffer item low high ≤ j →
        item.playTime ≤ (buffer.get ⟨j, hj⟩).playTime) := by
  have hsorted : ∀ (i j : ℕ) (hi : i < buffer.length) (hj : j < buffer.length),
      i ≤ j → (buffer.get ⟨i, hi⟩).playTime ≤ (buffer.get ⟨j, hj⟩).playTime := by
    intro i j hi hj hij
    rcases Nat.lt_or_ge i j with hlt | hge
    · simpa using List.pairwise_iff_getElem.mp hs i j hi hj hlt
    · have : i = j := by omega
      subst this
      rfl
  intro n
  induction n using Nat.strong_induction_on with
  | _ n IH =>
    intro low high hn hlh hhl hlow hhigh
    by_cases hcase : low < high
    · have hmid : (low + high) / 2 < buffer.length := by omega
      by_cases hcmp :
          (buffer.get ⟨(low + high) / 2, hmid⟩).playTime < item.playTime
      · rw [bsearchLow_step_lt buffer item low high hcase hmid hcmp]
        refine (IH (high - ((low + high) / 2 + 1)) (by omega)
          ((low + high) / 2 + 1) high rfl (by omega) hhl ?_ hhigh).imp
          (fun h1 => by omega) (fun h => h)
        intro j hj hjlt
        have hjm : j ≤ (low + high) / 2 := by omega
        calc (buffer.get ⟨j, hj⟩).playTime
            ≤ (buffer.get ⟨(low + high) / 2, hmid⟩).playTime :=
              hsorted j ((low + high) / 2) hj hmid hjm
          _ < item.playTime := hcmp
      · rw [bsearchLow_step_ge buffer item low high hcase hmid hcmp]
        have hle : item.playTime ≤ (buffer.get ⟨(low + high) / 2, hmid⟩).playTime :=
          le_of_not_lt hcmp
        refine (IH ((low + high) / 2 - low) (by omega)
          low ((low + high) / 2) rfl (by omega) (by omega) hlow ?_).imp
          (fun h => h) (fun h => h.imp (fun h2 => by omega) (fun h => h))
        intro j hj hjge
        calc item.playTime
            ≤ (buffer.get ⟨(low + high) / 2, hmid⟩).playTime := hle
          _ ≤ (buffer.get ⟨j, hj⟩).playTime :=
              hsorted ((low + high) / 2) j hmid hj hjge
    · rw [bsearchLow_step_done buffer item low high hcase]
      have heq : low = high := by omega
      exact ⟨le_refl low, by omega, hlow, fun j hj hjge => hhigh j hj (by omega)⟩

/-- On a buffer sorted by `playTime`, `insertSorted` splices the item at
the first position whose element has `playTime ≥ item.playTime`:
everything before is strictly below the item, everything after is `≥`. -/
theorem insertSorted_spec (buffer : List BufferedChunk) (item : BufferedChunk)
    (hs : buffer.Pairwise (fun a b => a.playTime ≤ b.playTime)) :
    ∃ i, i ≤ buffer.length ∧
      insertSorted buffer item = buffer.take i ++ item :: buffer.drop i ∧
      (∀ x ∈ buffer.take i, x.playTime < item.playTime) ∧
      (∀ x ∈ buffer.drop i, item.playTime ≤ x.playTime) := by
  obtain ⟨h0, hle, hbelow, habove⟩ :=
    bsearchLow_spec buffer item hs buffer.length 0 buffer.length rfl
      (Nat.zero_le _) (le_refl _)
      (fun j hj hj0 => absurd hj0 (Nat.not_lt_zero j))
      (fun j hj hge => absurd hj (by omega))
  refine ⟨bsearchLow buffer item 0 buffer.length, hle, rfl, ?_, ?_⟩
  · intro x hx
    obtain ⟨m, hm, hmx⟩ := List.mem_iff_getElem.mp hx
    have hmlen : m < buffer.length := by
      have := hm
      simp only [List.length_take] at this
      omega
    have hmi : m < bsearchLow buffer item 0 buffer.length := by
      have := hm
      simp only [List.length_take] at this
      omega
    have hgx : buffer.get ⟨m, hmlen⟩ = x := by
      rw [← hmx]
      simp [List.getElem_take]
    rw [← hgx]
    exact hbelow m hmlen hmi
  · intro x hx
    obtain ⟨m, hm, hmx⟩ := List.mem_iff_getElem.mp hx
    have hmlen : bsearchLow buffer item 0 buffer.length + m < buffer.length := by
      have := hm
      simp only [List.length_drop] at this
      omega
    have hgx : buffer.get ⟨bsearchLow buffer item 0 buffer.length + m, hmlen⟩ = x := by
      rw [← hmx]
      simp [List.getElem_drop]
    rw [← hgx]
    exact habove _ hmlen (Nat.le_add_right _ m)

theorem insertSorted_sorted (buffer : List BufferedChunk) (item : BufferedChunk)
    (hs : buffer.Pairwise (fun a b => a.playTime ≤ b.playTime)) :
    (insertSorted buffer item).Pairwise (fun a b => a.playTime ≤ b.playTime) := by
  obtain ⟨i, hi, heq, hbelow, habove⟩ := insertSorted_spec buffer item hs
  rw [heq, List.pairwise_append]
  refine ⟨List.Pairwise.sublist (List.take_sublist i buffer) hs, ?_, ?_⟩
  · rw [List.pairwise_cons]
    exact ⟨fun b hb => habove b hb,
      List.Pairwise.sublist (List.drop_sublist i buffer) hs⟩
  · intro a ha b hb
    rcases List.mem_cons.mp hb with hbi | hbd
    · rw [hbi]
      exact le_of_lt (hbelow a ha)
    · exact le_of_lt (lt_of_lt_of_le (hbelow a ha) (habove b hbd))

/-- Every element of the spliced buffer is the inserted item or an
element of the original buffer (no sortedness needed). -/
theorem insertSorted_mem (buffer : List BufferedChunk) (item : BufferedChunk) :
    ∀ x ∈ insertSorted buffer item, x = item ∨ x ∈ buffer := by
  intro x hx
  unfold insertSorted at hx
  rcases List.mem_append.mp hx with h | h
  · exact Or.inr (List.take_subset _ buffer h)
  · rcases List.mem_cons.mp h with h | h
    · exact Or.inl h
    · exact Or.inr (List.drop_subset _ buffer h)

/-- Case analysis on `handleAudioChunk`: the buffer is either untouched
(pre-sync or late paths) or is the trimmed result of the sorted insert. -/
theorem handleAudioChunk_buffer_cases (chunk : AudioChunk) (t : ℚ)
    (s : ClientState) :
    (handleAudioChunk chunk t s).buffer = s.buffer ∨
      (handleAudioChunk chunk t s).buffer =
        (trimBuffer (insertSorted s.buffer
          { chunk := chunk,
            playTime := toLocalTime chunk.timestamp s.sync + targetBufferMs })).1 := by
  unfold handleAudioChunk
  cases hsync : s.sync.isSynced
  · simp
  · by_cases hlate : toLocalTime chunk.timestamp s.sync + targetBufferMs < t
    · simp [hlate]
    · simp [hlate]

theorem handleAudioChunk_sorted (chunk : AudioChunk) (t : ℚ) (s : ClientState)
    (hs : s.buffer.Pairwise (fun a b => a.playTime ≤ b.playTime)) :
    (handleAudioChunk chunk t s).buffer.Pairwise
      (fun a b => a.playTime ≤ b.playTime) := by
  rcases handleAudioChunk_buffer_cases chunk t s with h | h
  · rw [h]; exact hs
  · rw [h]
    obtain ⟨k, hk, htrim⟩ := trimBuffer_drop (insertSorted s.buffer
      { chunk := chunk,
        playTime := toLocalTime chunk.timestamp s.sync + targetBufferMs })
    rw [htrim]
    exact List.Pairwise.sublist (List.drop_sublist k _)
      (insertSorted_sorted s.buffer _ hs)

theorem handleAudioChunk_span (chunk : AudioChunk) (t : ℚ) (s : ClientState)
    (hspan : bufferSpan s.buffer ≤ maxBufferMs) :
    bufferSpan (handleAudioChunk chunk t s).buffer ≤ maxBufferMs := by
  rcases handleAudioChunk_buffer_cases chunk t s with h | h
  · rw [h]; exact hspan
  · rw [h]
    exact trimBuffer_span _

/-- Pre-sync path of `handleAudioChunk`: the whole client state is
returned unchanged. -/
theorem handleAudioChunk_presync (chunk : AudioChunk) (t : ℚ) (s : ClientState)
    (hsync : s.sync.isSynced = false) :
    handleAudioChunk chunk t s = s := by
  unfold handleAudioChunk
  rw [hsync]
  rfl

/-- Late path of `handleAudioChunk`: gap accounting runs, the frame is
discarded before insertion, and the late counter goes up by one. -/
theorem handleAudioChunk_late (chunk : AudioChunk) (t : ℚ) (s : ClientState)
    (hsync : s.sync.isSynced = true)
    (hlate : toLocalTime chunk.timestamp s.sync + targetBufferMs < t) :
    handleAudioChunk chunk t s =
      { s with
          lastSequence := (seqAccount s.lastSequence s.droppedChunks chunk.sequence).1
          droppedChunks := (seqAccount s.lastSequence s.droppedChunks chunk.sequence).2
          lateChunks := s.lateChunks + 1 } := by
  unfold handleAudioChunk
  rw [hsync]
  simp only [if_pos hlate]
  rfl

/-- Insert path of `handleAudioChunk`: gap accounting runs, the frame is
spliced in sorted position, and the overflow trim pops are added to the
dropped counter. -/
theorem handleAudioChunk_insert (chunk : AudioChunk) (t : ℚ) (s : ClientState)
    (hsync : s.sync.isSynced = true)
    (hlate : ¬ toLocalTime chunk.timestamp s.sync + targetBufferMs < t) :
    handleAudioChunk chunk t s =
      { s with
          lastSequence := (seqAccount s.lastSequence s.droppedChunks chunk.sequence).1
          droppedChunks := (seqAccount s.lastSequence s.droppedChunks chunk.sequence).2 +
            ((trimBuffer (insertSorted s.buffer
              { chunk := chunk,
                playTime := toLocalTime chunk.timestamp s.sync + targetBufferMs })).2 : ℤ)
          buffer := (trimBuffer (insertSorted s.buffer
            { chunk := chunk,
              playTime := toLocalTime chunk.timestamp s.sync + targetBufferMs })).1 } := by
  unfold handleAudioChunk
  rw [hsync]
  simp only [if_neg hlate]
  rfl

/-- Every buffered frame after a `handleAudioChunk` call was either
already buffered or has a play time not earlier than the call's `now`. -/
theorem handleAudioChunk_future (chunk : AudioChunk) (t : ℚ) (s : ClientState) :
    ∀ x ∈ (handleAudioChunk chunk t s).buffer, x ∈ s.buffer ∨ t ≤ x.playTime := by
  intro x hx
  cases hsync : s.sync.isSynced
  · rw [handleAudioChunk_presync chunk t s hsync] at hx
    exact Or.inl hx
  · by_cases hlate : toLocalTime chunk.timestamp s.sync + targetBufferMs < t
    · rw [handleAudioChunk_late chunk t s hsync hlate] at hx
      exact Or.inl hx
    · rw [handleAudioChunk_insert chunk t s hsync hlate] at hx
      simp only [] at hx
      obtain ⟨k, hk, htrim⟩ := trimBuffer_drop (insertSorted s.buffer
        { chunk := chunk,
          playTime := toLocalTime chunk.timestamp s.sync + targetBufferMs })
      rw [htrim] at hx
      have hx2 := List.drop_subset k _ hx
      rcases insertSorted_mem s.buffer _ x hx2 with hxi | hxb
      · right
        rw [hxi]
        exact le_of_not_lt hlate
      · exact Or.inl hxb

theorem processChunks_sorted (inputs : List (AudioChunk × ℚ)) :
    ∀ s : ClientState,
      s.buffer.Pairwise (fun a b => a.playTime ≤ b.playTime) →
      (processChunks inputs s).buffer.Pairwise
        (fun a b => a.playTime ≤ b.playTime) := by
  induction inputs with
  | nil => intro s hs; exact hs
  | cons p rest ih =>
    intro s hs
    exact ih (handleAudioChunk p.1 p.2 s) (handleAudioChunk_sorted p.1 p.2 s hs)

theorem processChunks_span (inputs : List (AudioChunk × ℚ)) :
    ∀ s : ClientState, bufferSpan s.buffer ≤ maxBufferMs →
      bufferSpan (processChunks inputs s).buffer ≤ maxBufferMs := by
  induction inputs with
  | nil => intro s hs; exact hs
  | cons p rest ih =>
    intro s hs
    exact ih (handleAudioChunk p.1 p.2 s) (handleAudioChunk_span p.1 p.2 s hs)

/-! ## Framer (audio.ts, `chunkStream`) -/

/-- The inner `while (buffer.length >= chunkSize)` loop of `chunkStream`:
emits `chunkSize`-byte blocks off the front while enough bytes remain.
Returns the emitted blocks and the remaining buffer.  (With
`chunkSize = 0` the JavaScript loop would not terminate; the server only
calls it with `chunkSize = bytesPerChunk = 3840`.) -/
def drainFull (c : ℕ) (buf : List ℕ) : List (List ℕ) × List ℕ :=
  if h : 0 < c ∧ c ≤ buf.length then
    let rest := drainFull c (buf.drop c)
    (buf.take c :: rest.1, rest.2)
  else ([], buf)
termination_by buf.length
decreasing_by simp; omega

/-- The read loop of `chunkStream`: concatenate each received packet onto
the carry buffer, emit full blocks, and at stream end flush a non-empty
trailing partial block as-is. -/
def chunkStreamGo (c : ℕ) : List ℕ → List (List ℕ) → List (List ℕ)
  | buf, [] => if 0 < buf.length then [buf] else []
  | buf, p :: ps =>
    let d := drainFull c (buf ++ p)
    d.1 ++ chunkStreamGo c d.2 ps

/-- `chunkStream(stream, chunkSize)` (audio.ts): the byte stream arrives
as a list of packets; the generator starts with an empty carry buffer. -/
def chunkStream (c : ℕ) (packets : List (List ℕ)) : List (List ℕ) :=
  chunkStreamGo c [] packets

/-- Specification-side re-chunking: split a byte list into `c`-sized
blocks with the trailing partial block emitted as-is.  Stated from the
spec's words to compare `chunkStream` against. -/
def chunksOf (c : ℕ) (l : List ℕ) : List (List ℕ) :=
  if h : 0 < c ∧ 0 < l.length then l.take c :: chunksOf c (l.drop c)
  else if 0 < l.length then [l] else []
termination_by l.length
decreasing_by simp; omega

/-- Total number of payload bytes in a list of blocks. -/
def totalBytes (blocks : List (List ℕ)) : ℕ :=
  (blocks.map List.length).sum

theorem drainFull_flatten (c : ℕ) (buf : List ℕ) :
    (drainFull c buf).1.flatten ++ (drainFull c buf).2 = buf := by
  suffices h : ∀ n (buf : List ℕ), buf.length ≤ n →
      (drainFull c buf).1.flatten ++ (drainFull c buf).2 = buf from
    h buf.length buf (le_refl _)
  intro n
  induction n with
  | zero =>
    intro buf hb
    rw [drainFull]
    have : ¬ (0 < c ∧ c ≤ buf.length) := by omega
    rw [dif_neg this]
    simp
  | succ n ih =>
    intro buf hb
    rw [drainFull]
    split
    next h =>
      have hdrop := ih (buf.drop c) (by simp; omega)
      simp only [List.flatten_cons, List.append_assoc, hdrop]
      exact List.take_append_drop c buf
    next h => simp

theorem drainFull_blocks (c : ℕ) (buf : List ℕ) :
    ∀ b ∈ (drainFull c buf).1, b.length = c := by
  suffices h : ∀ n (buf : List ℕ), buf.length ≤ n →
      ∀ b ∈ (drainFull c buf).1, b.length = c from
    h buf.length buf (le_refl _)
  intro n
  induction n with
  | zero =>
    intro buf hb
    rw [drainFull]
    have : ¬ (0 < c ∧ c ≤ buf.length) := by omega
    rw [dif_neg this]
    simp
  | succ n ih =>
    intro buf hb
    rw [drainFull]
    split
    next h =>
      intro b hbmem
      simp only [List.mem_cons] at hbmem
      rcases hbmem with hbt | hbr
      · rw [hbt]
        simp
        omega
      · exact ih (buf.drop c) (by simp; omega) b hbr
    next h => simp

theorem drainFull_rest (c : ℕ) (hc : 0 < c) (buf : List ℕ) :
    (drainFull c buf).2.length < c := by
  suffices h : ∀ n (buf : List ℕ), buf.length ≤ n →
      (drainFull c buf).2.length < c from
    h buf.length buf (le_refl _)
  intro n
  induction n with
  | zero =>
    intro buf hb
    rw [drainFull]
    have hng : ¬ (0 < c ∧ c ≤ buf.length) := by omega
    rw [dif_neg hng]
    simp
    omega
  | succ n ih =>
    intro buf hb
    rw [drainFull]
    split
    next h => exact ih (buf.drop c) (by simp; omega)
    next h =>
      simp
      omega

theorem chunksOf_flatten (c : ℕ) (l : List ℕ) :
    (chunksOf c l).flatten = l := by
  suffices h : ∀ n (l : List ℕ), l.length ≤ n → (chunksOf c l).flatten = l from
    h l.length l (le_refl _)
  intro n
  induction n with
  | zero =>
    intro l hl
    have : l = [] := List.length_eq_zero.mp (by omega)
    subst this
    rw [chunksOf]
    simp
  | succ n ih =>
    intro l hl
    rw [chunksOf]
    split
    next h =>
      have := ih (l.drop c) (by simp; omega)
      simp only [List.flatten_cons, this]
      exact List.take_append_drop c l
    next h =>
      split
      next hlen => simp
      next hlen =>
        have : l = [] := List.length_eq_zero.mp (by omega)
        subst this
        simp

theorem chunksOf_full_prefix (c : ℕ) (bs : List (List ℕ))
    (hbs : ∀ b ∈ bs, b.length = c) (hc : 0 < c) (t : List ℕ) :
    chunksOf c (bs.flatten ++ t) = bs ++ chunksOf c t := by
  induction bs with
  | nil => simp
  | cons b rest ih =>
    have hb : b.length = c := hbs b (by simp)
    have hrest : ∀ x ∈ rest, x.length = c := fun x hx => hbs x (by simp [hx])
    have hlen : 0 < (b ++ (rest.flatten ++ t)).length := by
      simp
      omega
    rw [List.flatten_cons, List.append_assoc, chunksOf, dif_pos ⟨hc, hlen⟩,
      List.take_left' hb, List.drop_left' hb, ih hrest]
    simp

theorem chunkStreamGo_eq_chunksOf (c : ℕ) (hc : 0 < c) (packets : List (List ℕ)) :
    ∀ buf : List ℕ, buf.length < c →
      chunkStreamGo c buf packets = chunksOf c (buf ++ packets.flatten) := by
  induction packets with
  | nil =>
    intro buf hb
    rw [chunkStreamGo]
    by_cases hbuf : 0 < buf.length
    · rw [if_pos hbuf, List.flatten_nil, List.append_nil]
      rw [chunksOf, dif_pos ⟨hc, hbuf⟩, List.take_of_length_le (by omega),
        List.drop_of_length_le (by omega)]
      rw [chunksOf]
      simp
    · rw [if_neg hbuf]
      have : buf = [] := List.length_eq_zero.mp (by omega)
      subst this
      rw [chunksOf]
      simp
  | cons p ps ih =>
    intro buf hb
    have hflat := drainFull_flatten c (buf ++ p)
    have hblocks := drainFull_blocks c (buf ++ p)
    have hrest := drainFull_rest c hc (buf ++ p)
    simp only [chunkStreamGo]
    set d := drainFull c (buf ++ p) with hd
    rw [ih d.2 hrest]
    have hkey : buf ++ (p :: ps).flatten = d.1.flatten ++ (d.2 ++ ps.flatten) := by
      rw [List.flatten_cons, ← List.append_assoc, ← hflat, List.append_assoc]
    rw [hkey, chunksOf_full_prefix c d.1 hblocks hc]

theorem chunkStream_eq_chunksOf (c : ℕ) (hc : 0 < c) (packets : List (List ℕ)) :
    chunkStream c packets = chunksOf c packets.flatten := by
  rw [chunkStream, chunkStreamGo_eq_chunksOf c hc packets [] (by simpa using hc)]
  simp

theorem foldSeqAccount_eq_positiveGapSum (seqs : List ℤ)
    (h : ∀ q ∈ seqs, (0 : ℤ) ≤ q) :
    (foldSeqAccount seqs).2 = positiveGapSum seqs := by
  cases seqs with
  | nil => simp [foldSeqAccount, positiveGapSum]
  | cons a rest =>
    have ha : (0 : ℤ) ≤ a := h a (by simp)
    have hrest : ∀ q ∈ rest, (0 : ℤ) ≤ q := fun q hq => h q (by simp [hq])
    have hstep : seqAccount (-1) 0 a = (a, 0) := by
      unfold seqAccount
      norm_num
    rw [foldSeqAccount, List.foldl_cons, hstep,
      foldSeqAccount_aux rest a 0 ha hrest]
    simp

end PlayMe

open PlayMe

/-- Claim C1: for every sync exchange tuple (t1, t2, t3, t4) with
t1 ≤ t2 ≤ t3 ≤ t4, the values computed when processing the sync response
satisfy rtt ≥ 0 and |offset| ≤ rtt/2 + |t2 − t3|/2. -/
theorem sync_rtt_offset_bounds (t1 t2 t3 t4 : ℚ)
    (h12 : t1 ≤ t2) (h23 : t2 ≤ t3) (h34 : t3 ≤ t4) :
    0 ≤ rttOf t1 t2 t3 t4 ∧
      |offsetOf t1 t2 t3 t4| ≤ rttOf t1 t2 t3 t4 / 2 + |t2 - t3| / 2 := by
  constructor
  · unfold rttOf; linarith
  · unfold offsetOf rttOf
    rw [abs_le]
    have h := abs_nonneg (t2 - t3)
    constructor <;> linarith

/-- Concrete instance of `sync_rtt_offset_bounds` at (0, 1, 2, 3). -/
theorem sync_rtt_offset_bounds_witness :
    ((0 : ℚ) ≤ 1 ∧ (1 : ℚ) ≤ 2 ∧ (2 : ℚ) ≤ 3) ∧
      (0 ≤ rttOf 0 1 2 3 ∧
        |offsetOf 0 1 2 3| ≤ rttOf 0 1 2 3 / 2 + |(1 : ℚ) - 2| / 2) :=
  ⟨⟨by norm_num, by norm_num, by norm_num⟩,
    sync_rtt_offset_bounds 0 1 2 3 (by norm_num) (by norm_num) (by norm_num)⟩

/-- A client state whose sync estimator has accepted a sample with zero
offset, as after one ideal exchange: used as a concrete test state. -/
def syncedState : ClientState :=
  { initClientState with sync := { createSyncState with isSynced := true } }

def demoChunk : AudioChunk := { timestamp := 0, sequence := 0, data := [] }

def demoItem : BufferedChunk := { chunk := demoChunk, playTime := 0 }

def tieChunkA : AudioChunk := { timestamp := 10, sequence := 0, data := [] }

def tieChunkB : AudioChunk := { timestamp := 10, sequence := 1, data := [] }

/-- Claim C10: while the sink is not yet synchronized, `handleAudioChunk`
returns the client state unchanged — pre-sync chunks are silently
discarded without touching the buffer or any counter. -/
theorem presync_chunk_noop (chunk : AudioChunk) (t : ℚ) (s : ClientState)
    (h : s.sync.isSynced = false) :
    handleAudioChunk chunk t s = s :=
  handleAudioChunk_presync chunk t s h

/-- Concrete instance of `presync_chunk_noop` on the freshly created
client state. -/
theorem presync_chunk_noop_witness :
    initClientState.sync.isSynced = false ∧
      handleAudioChunk demoChunk 0 initClientState = initClientState :=
  ⟨rfl, presync_chunk_noop demoChunk 0 initClientState rfl⟩

/-- Claim C3 (amended): after any sequence of insertions the jitter buffer
is sorted by `playTime` ascending; `insertSorted` splices a new item at
the first position whose element has `playTime` not below the item's, so
an incoming frame is placed BEFORE every already-buffered frame of equal
`playTime` (ties sit in reverse arrival order, not ascending sequence). -/
theorem buffer_sorted_after_insertions :
    (∀ inputs : List (AudioChunk × ℚ),
      (processChunks inputs initClientState).buffer.Pairwise
        (fun a b => a.playTime ≤ b.playTime)) ∧
    (∀ (buffer : List BufferedChunk) (item : BufferedChunk),
      buffer.Pairwise (fun a b => a.playTime ≤ b.playTime) →
      ∃ i, insertSorted buffer item = buffer.take i ++ item :: buffer.drop i ∧
        (∀ x ∈ buffer.take i, x.playTime < item.playTime) ∧
        (∀ x ∈ buffer.drop i, item.playTime ≤ x.playTime)) := by
  constructor
  · intro inputs
    refine processChunks_sorted inputs initClientState ?_
    simp [initClientState]
  · intro buffer item hs
    obtain ⟨i, _, heq, hb, ha⟩ := insertSorted_spec buffer item hs
    exact ⟨i, heq, hb, ha⟩

/-- Concrete instance of `buffer_sorted_after_insertions` for the empty
buffer. -/
theorem buffer_sorted_after_insertions_witness :
    (([] : List BufferedChunk).Pairwise (fun a b => a.playTime ≤ b.playTime)) ∧
      (∃ i, insertSorted [] demoItem =
          List.take i [] ++ demoItem :: List.drop i [] ∧
        (∀ x ∈ List.take i ([] : List BufferedChunk), x.playTime < demoItem.playTime) ∧
        (∀ x ∈ List.drop i ([] : List BufferedChunk), demoItem.playTime ≤ x.playTime)) :=
  ⟨List.Pairwise.nil,
    buffer_sorted_after_insertions.2 [] demoItem List.Pairwise.nil⟩

/-- Claim C3 counterexample: two chunks with identical timestamp (hence
identical play time 70) arriving with sequences 0 then 1 leave the buffer
ordered `[seq 1, seq 0]` — among frames with equal `playTime` the order
is NOT ascending sequence as claimed. -/
theorem buffer_tie_order_counterexample :
    ((handleAudioChunk tieChunkB 0 (handleAudioChunk tieChunkA 0 syncedState)).buffer.map
      (fun b => (b.chunk.sequence, b.playTime))) = [(1, 70), (0, 70)] := by
  have h1 : handleAudioChunk tieChunkA 0 syncedState =
      { syncedState with
          lastSequence := 0
          buffer := [{ chunk := tieChunkA, playTime := 70 }] } := by
    simp [handleAudioChunk, tieChunkA, syncedState, initClientState, createSyncState,
      seqAccount, toLocalTime, targetBufferMs, insertSorted, bsearchLow, trimBuffer,
      maxBufferMs, List.getLast]
    norm_num
  rw [h1]
  simp [handleAudioChunk, tieChunkA, tieChunkB, syncedState, initClientState,
    createSyncState, seqAccount, toLocalTime, targetBufferMs, insertSorted,
    bsearchLow, maxBufferMs]
  norm_num
  simp [trimBuffer, maxBufferMs, List.getLast]

/-- Claim C4: from the initial client state, the jitter buffer's time-span
never exceeds `maxBufferMs = 200` after any processed chunk; the overflow
trim pops exactly from the front (a `drop`) and reports each popped frame
in its count, which the insert path adds to the dropped counter. -/
theorem buffer_span_bounded :
    maxBufferMs = 200 ∧
    (∀ inputs : List (AudioChunk × ℚ),
       bufferSpan (processChunks inputs initClientState).buffer ≤ maxBufferMs) ∧
    (∀ buf : List BufferedChunk, ∃ k, trimBuffer buf = (buf.drop k, k)) ∧
    (∀ (chunk : AudioChunk) (t : ℚ) (s : ClientState),
       s.sync.isSynced = true →
       ¬ toLocalTime chunk.timestamp s.sync + targetBufferMs < t →
       (handleAudioChunk chunk t s).droppedChunks =
         (seqAccount s.lastSequence s.droppedChunks chunk.sequence).2 +
           ((trimBuffer (insertSorted s.buffer
             { chunk := chunk,
               playTime := toLocalTime chunk.timestamp s.sync + targetBufferMs })).2 : ℤ)) := by
  refine ⟨rfl, ?_, ?_, ?_⟩
  · intro inputs
    refine processChunks_span inputs initClientState ?_
    simp [initClientState, bufferSpan]
    norm_num [maxBufferMs]
  · intro buf
    obtain ⟨k, _, hk⟩ := trimBuffer_drop buf
    exact ⟨k, hk⟩
  · intro chunk t s hsync hlate
    rw [handleAudioChunk_insert chunk t s hsync hlate]

/-- Concrete instance of `buffer_span_bounded` on the synced state at
`now = 0`. -/
theorem buffer_span_bounded_witness :
    syncedState.sync.isSynced = true ∧
      ¬ toLocalTime demoChunk.timestamp syncedState.sync + targetBufferMs < 0 ∧
      (handleAudioChunk demoChunk 0 syncedState).droppedChunks =
        (seqAccount syncedState.lastSequence syncedState.droppedChunks
          demoChunk.sequence).2 +
          ((trimBuffer (insertSorted syncedState.buffer
            { chunk := demoChunk,
              playTime := toLocalTime demoChunk.timestamp syncedState.sync +
                targetBufferMs })).2 : ℤ) := by
  have hl : ¬ toLocalTime demoChunk.timestamp syncedState.sync + targetBufferMs < 0 := by
    norm_num [toLocalTime, demoChunk, syncedState, initClientState, createSyncState,
      targetBufferMs]
  exact ⟨rfl, hl, buffer_span_bounded.2.2.2 demoChunk 0 syncedState rfl hl⟩

/-- Claim C5 (amended): the sink computes
`play_at = source_to_local(timestamp) + targetBufferMs`; when
`play_at < now` the frame is discarded before insertion and the late
counter goes up by one; consequently every frame present in the buffer
had `play_at ≥ now` (not strictly `>`) at its insertion time. -/
theorem late_frames_dropped_before_insertion :
    (∀ (chunk : AudioChunk) (t : ℚ) (s : ClientState),
       s.sync.isSynced = true →
       toLocalTime chunk.timestamp s.sync + targetBufferMs < t →
       (handleAudioChunk chunk t s).buffer = s.buffer ∧
       (handleAudioChunk chunk t s).lateChunks = s.lateChunks + 1) ∧
    (∀ (chunk : AudioChunk) (t : ℚ) (s : ClientState),
       ∀ x ∈ (handleAudioChunk chunk t s).buffer, x ∈ s.buffer ∨ t ≤ x.playTime) := by
  constructor
  · intro chunk t s hsync hlate
    rw [handleAudioChunk_late chunk t s hsync hlate]
    exact ⟨rfl, rfl⟩
  · exact handleAudioChunk_future

/-- Concrete instance of `late_frames_dropped_before_insertion`: a chunk
whose play time 70 is before `now = 100` is counted late and not
buffered. -/
theorem late_frames_dropped_before_insertion_witness :
    (syncedState.sync.isSynced = true ∧
      toLocalTime demoChunk.timestamp syncedState.sync + targetBufferMs < 100) ∧
      (handleAudioChunk demoChunk 100 syncedState).buffer = syncedState.buffer ∧
      (handleAudioChunk demoChunk 100 syncedState).lateChunks =
        syncedState.lateChunks + 1 := by
  have hl : toLocalTime demoChunk.timestamp syncedState.sync + targetBufferMs < 100 := by
    norm_num [toLocalTime, demoChunk, syncedState, initClientState, createSyncState,
      targetBufferMs]
  exact ⟨⟨rfl, hl⟩,
    late_frames_dropped_before_insertion.1 demoChunk 100 syncedState rfl hl⟩

/-- Claim C5 counterexample: a chunk whose play time exactly equals the
current time (`play_at = now = 60`) is NOT discarded — it is inserted
with `play_at = now`, and the late counter stays 0 — so a buffered frame
need not have had `play_at_local > local_now` at insertion, only `≥`. -/
theorem late_boundary_counterexample :
    ((handleAudioChunk demoChunk 60 syncedState).buffer.map
      (fun b => b.playTime) = [60]) ∧
      (handleAudioChunk demoChunk 60 syncedState).lateChunks = 0 := by
  constructor
  · simp [handleAudioChunk, demoChunk, syncedState, initClientState, createSyncState,
      seqAccount, toLocalTime, targetBufferMs, insertSorted, bsearchLow, trimBuffer,
      maxBufferMs, List.getLast]
  · simp [handleAudioChunk, demoChunk, syncedState, initClientState, createSyncState,
      seqAccount, toLocalTime, targetBufferMs, insertSorted, bsearchLow, trimBuffer,
      maxBufferMs, List.getLast]

/-- Claim C6 (amended): `handleAudioChunk` always sets `lastSequence` to
the chunk's sequence; a gap is added to the dropped counter only when it
is positive (`seq > lastSeq + 1`, with `lastSeq ≥ 0`); and over any
delivered stream of nonnegative sequence numbers the gap-accounting
contribution equals the sum of the positive gaps. -/
theorem sequence_gap_counter :
    (∀ lastSeq dropped seq : ℤ, (seqAccount lastSeq dropped seq).1 = seq) ∧
    (∀ lastSeq dropped seq : ℤ, 0 ≤ lastSeq → lastSeq + 1 < seq →
       (seqAccount lastSeq dropped seq).2 = dropped + (seq - lastSeq - 1)) ∧
    (∀ seqs : List ℤ, (∀ q ∈ seqs, (0 : ℤ) ≤ q) →
       (foldSeqAccount seqs).2 = positiveGapSum seqs) ∧
    (∀ (chunk : AudioChunk) (t : ℚ) (s : ClientState), s.sync.isSynced = true →
       (handleAudioChunk chunk t s).lastSequence = chunk.sequence) := by
  refine ⟨seqAccount_fst, ?_, foldSeqAccount_eq_positiveGapSum, ?_⟩
  · intro lastSeq dropped seq h hgap
    rw [seqAccount_of_nonneg lastSeq dropped seq h]
    simp only []
    omega
  · intro chunk t s hsync
    by_cases hlate : toLocalTime chunk.timestamp s.sync + targetBufferMs < t
    · rw [handleAudioChunk_late chunk t s hsync hlate]
      exact seqAccount_fst _ _ _
    · rw [handleAudioChunk_insert chunk t s hsync hlate]
      exact seqAccount_fst _ _ _

/-- Concrete instance of `sequence_gap_counter`: after sequence 0, a jump
to sequence 5 adds the positive gap 4 to the dropped counter. -/
theorem sequence_gap_counter_witness :
    ((0 : ℤ) ≤ 0 ∧ (0 : ℤ) + 1 < 5) ∧
      (seqAccount 0 0 5).2 = 0 + (5 - 0 - 1) := by
  have h5 : (0 : ℤ) + 1 < 5 := by norm_num
  exact ⟨⟨le_refl 0, h5⟩, sequence_gap_counter.2.1 0 0 5 (le_refl 0) h5⟩

/-- Claim C6 counterexample: with `lastSeq = 5 ≥ 0` an out-of-order chunk
with sequence 3 satisfies `seq ≠ lastSeq + 1`, yet its (negative) gap
`3 − 5 − 1 = −3` is NOT added to the dropped counter: after delivering
sequences 5 then 3 the counter is 0, not 0 + (3 − 5 − 1) = −3. -/
theorem sequence_gap_negative_counterexample :
    (handleAudioChunk { timestamp := 0, sequence := 5, data := [] } 0
        syncedState).droppedChunks = 0 ∧
      (handleAudioChunk { timestamp := 0, sequence := 3, data := [] } 0
        (handleAudioChunk { timestamp := 0, sequence := 5, data := [] } 0
          syncedState)).droppedChunks = 0 ∧
      (0 : ℤ) ≠ 0 + (3 - 5 - 1) := by
  have h1 : handleAudioChunk { timestamp := 0, sequence := 5, data := [] } 0
      syncedState =
      { syncedState with
          lastSequence := 5
          buffer := [{ chunk := { timestamp := 0, sequence := 5, data := [] },
                       playTime := 60 }] } := by
    simp [handleAudioChunk, syncedState, initClientState, createSyncState,
      seqAccount, toLocalTime, targetBufferMs, insertSorted, bsearchLow, trimBuffer,
      maxBufferMs, List.getLast]
  refine ⟨by rw [h1]; rfl, ?_, by norm_num⟩
  rw [h1]
  simp [handleAudioChunk, syncedState, initClientState, createSyncState,
    seqAccount, toLocalTime, targetBufferMs, insertSorted, bsearchLow, maxBufferMs,
    trimBuffer, List.getLast]
  norm_num

/-- Repeated `client_ready` handling is absorbed at the sink table:
setting the same connection ready twice equals setting it once. -/
theorem setReady_idem (wsId : String) (cls : List SClient) :
    setReady wsId (setReady wsId cls) = setReady wsId cls := by
  induction cls with
  | nil => rfl
  | cons c rest ih =>
    simp only [setReady, List.map_cons] at *
    by_cases h : c.id = wsId
    · simp [h, ih]
    · simp [h, ih]

/-- Claim C9: an audio frame is sent exactly to the clients whose
`isReady` flag is true; `client_ready` is the only message that changes
the sink table (and it is idempotent); a newly opened connection is
registered with `isReady = false`. -/
theorem broadcast_only_ready :
    (∀ cls : List SClient, ∀ c ∈ broadcastTargets cls,
       c.isReady = true ∧ c ∈ cls) ∧
    (∀ (tNow : ℚ) (s : ServerState) (block : List ℕ) (i : String),
       i ∈ (processAudioStep tNow s block).2.2 →
       ∃ c ∈ s.clients, c.id = i ∧ c.isReady = true) ∧
    (∀ (wsId cid : String) (t2 t3 : ℚ) (s : ServerState),
       (serverHandleMessage wsId (.clientReady cid) t2 t3
         (serverHandleMessage wsId (.clientReady cid) t2 t3 s).1).1 =
         (serverHandleMessage wsId (.clientReady cid) t2 t3 s).1) ∧
    (∀ (wsId : String) (m : ServerMsg) (t2 t3 : ℚ) (s : ServerState),
       (∀ cid, m ≠ .clientReady cid) →
       (serverHandleMessage wsId m t2 t3 s).1.clients = s.clients) ∧
    (∀ (cid : String) (s : ServerState), ∀ c ∈ (serverOpen cid s).1.clients,
       c ∈ s.clients ∨ c = { id := cid, isReady := false }) := by
  refine ⟨?_, ?_, ?_, ?_, ?_⟩
  · intro cls c hc
    rw [broadcastTargets] at hc
    have := List.mem_filter.mp hc
    exact ⟨by simpa using this.2, this.1⟩
  · intro tNow s block i hi
    rw [processAudioStep] at hi
    simp only [List.mem_map] at hi
    obtain ⟨c, hc, hci⟩ := hi
    rw [broadcastTargets] at hc
    have := List.mem_filter.mp hc
    exact ⟨c, this.1, hci, by simpa using this.2⟩
  · intro wsId cid t2 t3 s
    simp [serverHandleMessage, setReady_idem]
  · intro wsId m t2 t3 s hm
    cases m with
    | syncRequest t1 => rfl
    | clientReady cid => exact absurd rfl (hm cid)
    | other => rfl
  · intro cid s c hc
    rw [serverOpen] at hc
    simp only [List.mem_append, List.mem_singleton] at hc
    exact hc

/-- Concrete instance of `broadcast_only_ready` on a one-client table. -/
theorem broadcast_only_ready_witness :
    ({ id := "a", isReady := true } : SClient) ∈
        broadcastTargets [{ id := "a", isReady := true }] ∧
      (({ id := "a", isReady := true } : SClient).isReady = true ∧
        ({ id := "a", isReady := true } : SClient) ∈
          [({ id := "a", isReady := true } : SClient)]) :=
  ⟨by simp [broadcastTargets],
    broadcast_only_ready.1 [{ id := "a", isReady := true }]
      { id := "a", isReady := true } (by simp [broadcastTargets])⟩

/-- A well-formed MessagePack map `{ "type": "bogus" }` — its tag names
no message of the protocol. -/
def unknownTagBytes : List ℕ :=
  [0x81, 0xa4, 0x74, 0x79, 0x70, 0x65, 0xa5, 0x62, 0x6f, 0x67, 0x75, 0x73]

/-- A `bin 8` blob declaring 5 payload bytes with only 2 present. -/
def truncatedBinBytes : List ℕ :=
  [0xc4, 0x05, 0x00, 0x01]

/-- Claim C7 (amended): `decodeMessage` fails only on structurally
malformed MessagePack input — in particular on a binary blob whose
declared length exceeds the data present — and performs no
message-level validation: a well-formed map with an unknown tag decodes
to a value (which `handleMessage` then logs and ignores), as do maps
with absent or out-of-range fields. -/
theorem decode_structural_only :
    decodeMessage unknownTagBytes =
      some (.map [(.str [0x74, 0x79, 0x70, 0x65],
                   .str [0x62, 0x6f, 0x67, 0x75, 0x73])]) ∧
      decodeMessage truncatedBinBytes = none := by
  constructor
  · simp [decodeMessage, unknownTagBytes, decodeVal, decodeMap, readN]
  · simp [decodeMessage, truncatedBinBytes, decodeVal, readN]

/-- Claim C7 counterexample: an input whose tag is unknown on which
`decodeMessage` does NOT report failure — it returns a message value,
contradicting `for every such input, decodeMessage reports failure`. -/
theorem decode_unknown_tag_counterexample :
    (decodeMessage unknownTagBytes).isSome = true := by
  simp [decodeMessage, unknownTagBytes, decodeVal, decodeMap, readN]

/-- Claim C8 (amended): on receiving `server_info` the sink stores the
announced frame constants and proceeds; it performs no validation
against its own configured constants, emits no action, and never closes
the session — even when the constants differ. -/
theorem server_info_stored_unvalidated (si : ServerInfo) (t : ℚ)
    (s : ClientState) :
    clientHandleMessage (.serverInfoMsg si) t s =
      ({ s with serverInfo := some si }, []) :=
  rfl

def mismatchedInfo : ServerInfo :=
  { sampleRate := 44100, channels := 2, bitDepth := 16,
    chunkDurationMs := 20, serverStartTime := 0 }

def connectedState : ClientState :=
  { initClientState with isConnected := true }

/-- Claim C8 counterexample: a `server_info` announcing 44100 Hz, which
differs from the sink's configured 48000 Hz, is simply stored: the
handler emits no action (in particular no close), and the session stays
connected instead of transitioning to Closed with a protocol error. -/
theorem server_info_mismatch_counterexample :
    mismatchedInfo.sampleRate ≠ sampleRate ∧
      (clientHandleMessage (.serverInfoMsg mismatchedInfo) 0 connectedState).2 = [] ∧
      (clientHandleMessage (.serverInfoMsg mismatchedInfo) 0
        connectedState).1.isConnected = true ∧
      (clientHandleMessage (.serverInfoMsg mismatchedInfo) 0
        connectedState).1.serverInfo = some mismatchedInfo :=
  ⟨by norm_num [mismatchedInfo, sampleRate], rfl, rfl, rfl⟩

/-- Claim C2 (amended): for a positive chunk size, `chunkStream` is
exactly the re-chunking of the concatenated capture stream into
`c`-sized blocks in source order with the trailing partial block emitted
as-is; hence the total bytes emitted (sent as one `audio_chunk` payload
per block to each ready sink) equal the full stream length `L`, not
`floor(L / bytesPerChunk) × bytesPerChunk`. -/
theorem chunkStream_rechunks_stream (c : ℕ) (packets : List (List ℕ))
    (hc : 0 < c) :
    chunkStream c packets = chunksOf c packets.flatten ∧
      (chunkStream c packets).flatten = packets.flatten ∧
      totalBytes (chunkStream c packets) = packets.flatten.length := by
  have h := chunkStream_eq_chunksOf c hc packets
  refine ⟨h, ?_, ?_⟩
  · rw [h, chunksOf_flatten]
  · rw [totalBytes, ← List.length_flatten, h, chunksOf_flatten]

/-- Concrete instance of `chunkStream_rechunks_stream` with chunk size 2
over a single 3-byte packet. -/
theorem chunkStream_rechunks_stream_witness :
    0 < 2 ∧
      (chunkStream 2 [[1, 2, 3]] = chunksOf 2 [[1, 2, 3]].flatten ∧
        (chunkStream 2 [[1, 2, 3]]).flatten = [[1, 2, 3]].flatten ∧
        totalBytes (chunkStream 2 [[1, 2, 3]]) = [[1, 2, 3]].flatten.length) :=
  ⟨by norm_num, chunkStream_rechunks_stream 2 [[1, 2, 3]] (by norm_num)⟩

/-- Claim C2 counterexample: a non-empty capture stream of a single byte
(`L = 1 < bytesPerChunk = 3840`) makes `chunkStream` emit that byte as a
trailing partial block, so the bytes emitted to a ready sink total 1,
whereas `floor(L / bytesPerChunk) × bytesPerChunk = 0`. -/
theorem chunkStream_partial_block_counterexample :
    totalBytes (chunkStream bytesPerChunk [[7]]) = 1 ∧
      (1 : ℕ) / bytesPerChunk * bytesPerChunk = 0 ∧ (1 : ℕ) ≠ 0 := by
  have hc : 0 < bytesPerChunk := by
    norm_num [bytesPerChunk, samplesPerChunk, sampleRate, channels, bitDepth,
      chunkDurationMs]
  refine ⟨?_, ?_, by norm_num⟩
  · rw [totalBytes, ← List.length_flatten, chunkStream_eq_chunksOf _ hc,
      chunksOf_flatten]
    simp
  · norm_num [bytesPerChunk, samplesPerChunk, sampleRate, channels, bitDepth,
      chunkDurationMs]
